import Mathlib

/-!
Verification development for WipeCore (final variant: `src/wipe.rs`,
`src/win.rs`, `src/cli.rs`, `src/util.rs`, driver `src/main.rs`).

The wipe engine `wipe_file` is embedded as a trace semantics: the engine
emits a sequence of seek / write / flush operations; an oracle decides
which operations succeed, a second oracle supplies the random bytes drawn
in `Random` mode, and the target is a flat overwritable byte range
represented as a function from offset to byte value.  The disk-wipe flow
of `src/win.rs` is embedded as a pure function over a probe oracle that
stands for the two fallible OS calls (`CreateFileW` open and the
`IOCTL_DISK_GET_LENGTH_INFO` length query) performed per candidate index.
-/

namespace WipeCore

/-- Wipe modes of the final variant (`src/wipe.rs`, `enum WipeMode`). -/
inductive WipeMode where
  | Zeros
  | Random
  | Secureflip
  deriving DecidableEq, Repr

/-- Chunk size used by `wipe_file`: `const CHUNK: usize = 8 * 1024 * 1024` (8 MiB). -/
def CHUNK : Nat := 8 * 1024 * 1024

/-- Offset/length pairs of the chunk writes issued by the inner
`while written < size` loop of `wipe_file`, starting from a given
`written` counter: `to_write = if left < CHUNK { left } else { CHUNK }`
with `left = size - written`. -/
def chunksFrom (size written : Nat) : List (Nat × Nat) :=
  if written < size then
    (written, if size - written < CHUNK then size - written else CHUNK)
      :: chunksFrom size (written + (if size - written < CHUNK then size - written else CHUNK))
  else
    []
termination_by size - written
decreasing_by
  simp only [CHUNK]
  split <;> omega

/-- Chunk writes of one full pass (the loop starts with `written = 0`). -/
def chunks (size : Nat) : List (Nat × Nat) :=
  chunksFrom size 0

/-- A chunk list covers the byte range `[lo, hi)` exactly: chunks are in
ascending offset order, contiguous (no gap, no overlap), non-empty, each
at most `CHUNK` bytes. -/
def covers : List (Nat × Nat) → Nat → Nat → Prop
  | [], lo, hi => lo = hi
  | c :: rest, lo, hi => c.1 = lo ∧ 0 < c.2 ∧ c.2 ≤ CHUNK ∧ covers rest (lo + c.2) hi

/-- Observable I/O operations performed by `wipe_file` on its target:
`file.seek(SeekFrom::Start(0))`, `file.write_all(&buf[..to_write])`
(recorded with its pass number, byte offset and length) and `file.flush()`. -/
inductive Op where
  | seek (pass : Nat)
  | write (pass off len : Nat)
  | flush (pass : Nat)
  deriving DecidableEq, Repr

/-- Fixed fill byte of a pass, `None` for `Random`
(`static_pattern` in `wipe_file`): `Secureflip` writes `0x00` on odd
passes and `0xFF` on even passes (1-indexed), `Zeros` always `0x00`. -/
def staticPattern (mode : WipeMode) (pass : Nat) : Option Nat :=
  match mode with
  | WipeMode.Secureflip => if pass % 2 = 1 then some 0x00 else some 0xFF
  | WipeMode.Zeros => some 0x00
  | WipeMode.Random => none

/-- Byte placed at buffer index `i` of the chunk written at offset `off`
in pass `pass`: the fixed pattern when there is one, otherwise the value
drawn from the random generator (`rng.fill_bytes`). -/
def writeData (mode : WipeMode) (rng : Nat → Nat → Nat → Nat) (pass off i : Nat) : Nat :=
  match staticPattern mode pass with
  | some b => b
  | none => rng pass off i

/-- Effect of one operation on the target's content: a write overwrites
the byte range `[off, off + len)`, seek and flush leave content unchanged. -/
def applyOp (mode : WipeMode) (rng : Nat → Nat → Nat → Nat) (c : Nat → Nat) : Op → (Nat → Nat)
  | Op.seek _ => c
  | Op.flush _ => c
  | Op.write pass off len =>
      fun j => if off ≤ j ∧ j < off + len then writeData mode rng pass off (j - off) else c j

/-- Content after applying a list of operations in order. -/
def applyOps (mode : WipeMode) (rng : Nat → Nat → Nat → Nat) (c : Nat → Nat)
    (ops : List Op) : Nat → Nat :=
  ops.foldl (applyOp mode rng) c

/-- Effective pass count: `wipe_file` raises the pass count to 2 for
`Secureflip` when the request asked for fewer (`if passes < 2 { passes = 2 }`). -/
def effPasses (mode : WipeMode) (passes : Nat) : Nat :=
  match mode with
  | WipeMode.Secureflip => if passes < 2 then 2 else passes
  | _ => passes

/-- Whether `wipe_file` prints the "passes changed from {n} to 2" notice:
exactly when the mode is `Secureflip` and the requested count is below 2. -/
def secureflipAdjusted (mode : WipeMode) (passes : Nat) : Bool :=
  match mode with
  | WipeMode.Secureflip => if passes < 2 then true else false
  | _ => false

/-- Operations of a single pass of `wipe_file`: seek to 0, the chunk
writes of the streaming loop, then flush. -/
def passOps (pass size : Nat) : List Op :=
  Op.seek pass :: (((chunks size).map fun ch => Op.write pass ch.1 ch.2) ++ [Op.flush pass])

/-- Operations of the whole `for pass in 1..=passes` loop of `wipe_file`,
after the `Secureflip` pass-count adjustment. -/
def wipeOps (mode : WipeMode) (size passes : Nat) : List Op :=
  (List.range (effPasses mode passes)).flatMap fun i => passOps (i + 1) size

/-- Offset/length pairs of the write operations that belong to pass `p`
within an operation list. -/
def passWrites (ops : List Op) (p : Nat) : List (Nat × Nat) :=
  ops.filterMap fun op =>
    match op with
    | Op.write q off len => if q = p then some (off, len) else none
    | _ => none

/-- Number of passes started within an operation list (each pass starts
with exactly one seek). -/
def numPasses (ops : List Op) : Nat :=
  ops.countP fun op =>
    match op with
    | Op.seek _ => true
    | _ => false

/-- Result of running the engine against a target: the operations actually
attempted (in order), the final content, and either success or the first
failed operation (the `?` operator propagates the first `io::Error`). -/
structure RunResult where
  trace : List Op
  content : Nat → Nat
  result : Except Op Unit

/-- Execute an operation list against a target: each operation is attempted
in order; the success oracle `ok` decides whether the underlying OS call
succeeds; on the first failure the run stops immediately with that
operation as the error and no later operation is attempted. -/
def execOps (mode : WipeMode) (rng : Nat → Nat → Nat → Nat) (ok : Op → Bool) :
    (Nat → Nat) → List Op → RunResult
  | c, [] => ⟨[], c, Except.ok ()⟩
  | c, op :: rest =>
    if ok op then
      let r := execOps mode rng ok (applyOp mode rng c op) rest
      ⟨op :: r.trace, r.content, r.result⟩
    else
      ⟨[op], c, Except.error op⟩

/-- Model of `wipe_file(file, size, mode, passes)` (`src/wipe.rs`): the
target file is represented by its initial content `c0`, the success oracle
`ok` for its seek/write/flush calls, and the random-byte oracle `rng`. -/
def wipe_file (ok : Op → Bool) (rng : Nat → Nat → Nat → Nat) (c0 : Nat → Nat)
    (size : Nat) (mode : WipeMode) (passes : Nat) : RunResult :=
  execOps mode rng ok c0 (wipeOps mode size passes)

/-- Leading and trailing whitespace removed from a character list
(model of Rust `str::trim`). -/
def trimChars (l : List Char) : List Char :=
  ((l.dropWhile Char.isWhitespace).reverse.dropWhile Char.isWhitespace).reverse

/-- Model of Rust `str::trim` on a `String`. -/
def rustTrim (s : String) : String :=
  ⟨trimChars s.data⟩

/-- Model of Rust `str::to_lowercase` (character-wise lowercasing; the
inputs compared in this program are ASCII). -/
def rustToLowercase (s : String) : String :=
  ⟨s.data.map Char.toLower⟩

/-- Value of a digit string (model of the digit-accumulation loop of
Rust's integer `parse`): defined only when the list is non-empty and all
characters are decimal digits. -/
def digitsToNat (l : List Char) : Option Nat :=
  if l.isEmpty then none
  else if l.all Char.isDigit then
    some (l.foldl (fun acc c => acc * 10 + (c.toNat - 48)) 0)
  else none

/-- Model of `str::parse::<u32>()`: digits only, value below `2^32`. -/
def parseU32 (s : String) : Option Nat :=
  match digitsToNat s.data with
  | some n => if n < 4294967296 then some n else none
  | none => none

/-- Acceptance condition of `confirm_wipe` in the final variant
(`src/wipe.rs`): it proceeds only when
`input.trim().to_lowercase() == "YES"` — the input side is lower-cased,
the constant `"YES"` is not. -/
def confirm_wipe_accepts (input : String) : Bool :=
  decide (rustToLowercase (rustTrim input) = ("YES"))

/-- Outcome of probing one candidate device index: the `CreateFileW` open
fails, the open succeeds but the length IOCTL fails, or the IOCTL reports
a (signed 64-bit) length. -/
inductive ProbeResult where
  | openFail
  | queryFail
  | length (n : Int)
  deriving DecidableEq, Repr

/-- Per-disk record collected by `run_disk_wipe_flow` (`struct DiskInfo`
in `src/win.rs`). -/
structure DiskInfo where
  index : Nat
  size_bytes : Nat
  is_system : Bool
  deriving DecidableEq, Repr

/-- Index/size pairs kept by the enumeration loop shared by `list_disks`
and `run_disk_wipe_flow` (`src/win.rs`): for each `i in 0..max_index`, an
open failure is skipped silently (`continue`), a length-query failure is
logged and skipped (`continue`), and a non-positive reported length is
skipped (`if size_i64 <= 0 { continue }`); otherwise `(i, size as u64)`
is kept. -/
def keepDisk (i : Nat) : ProbeResult → Option (Nat × Nat)
  | ProbeResult.openFail => none
  | ProbeResult.queryFail => none
  | ProbeResult.length n => if n ≤ 0 then none else some (i, n.toNat)

/-- Index/size pairs kept over the scan `for i in 0..max_index`. -/
def enumDisks (probe : Nat → ProbeResult) (maxIndex : Nat) : List (Nat × Nat) :=
  (List.range maxIndex).filterMap fun i => keepDisk i (probe i)

/-- Disk records built by the collection loop of `run_disk_wipe_flow`:
`is_system` is set exactly when the index equals the resolved system disk. -/
def collectDisks (probe : Nat → ProbeResult) (maxIndex systemDisk : Nat) : List DiskInfo :=
  (enumDisks probe maxIndex).map fun p => ⟨p.1, p.2, p.1 == systemDisk⟩

/-- Candidate set offered for whole-device wiping:
`disks.iter().filter(|d| !d.is_system)` in `run_disk_wipe_flow`
(`MAX_INDEX` is 16). -/
def nonSystemCandidates (probe : Nat → ProbeResult) (systemDisk : Nat) : List DiskInfo :=
  (collectDisks probe 16 systemDisk).filter fun d => !d.is_system

/-- Error exits of `run_disk_wipe_flow`, one per
`return Err(io::Error::new(..))` site: "No physical disks found.",
"No non-system disks available to wipe.", "Invalid disk index.",
"Selected disk is not a valid non-system disk.". -/
inductive FlowErr where
  | noDisks
  | noNonSystemDisks
  | invalidIndex
  | notNonSystem
  deriving DecidableEq, Repr

/-- Successful exits of `run_disk_wipe_flow`: a clean user cancel
(`return Ok(())` before any destructive action) or a wipe of the selected
index. -/
inductive FlowOutcome where
  | cancelled
  | wiped (idx : Nat)
  deriving DecidableEq, Repr

/-- Confirmation phrase required for a device wipe:
`format!("WIPE-DISK-{}", selected.index)`. -/
def wipePhrase (idx : Nat) : String :=
  ("WIPE-DISK-") ++ Nat.repr idx

/-- Model of `run_disk_wipe_flow` (`src/win.rs`) up to the point where the
selected device is opened for read/write: `probe` stands for the per-index
OS calls of the collection loop, `systemDisk` is the already-resolved
system-disk index, `line1` is the line read at the disk-selection prompt
and `input2` the line read at the confirmation prompt.  The first
component lists the device indices opened for read/write (at most the one
wiped); the second is the flow's result. -/
def run_disk_wipe_flow (probe : Nat → ProbeResult) (systemDisk : Nat)
    (line1 input2 : String) : List Nat × Except FlowErr FlowOutcome :=
  let disks := collectDisks probe 16 systemDisk
  if disks = [] then ([], Except.error FlowErr.noDisks)
  else
    let nonSystem := nonSystemCandidates probe systemDisk
    if nonSystem = [] then ([], Except.error FlowErr.noNonSystemDisks)
    else
      let trimmed := rustTrim line1
      if trimmed = ("") then ([], Except.ok FlowOutcome.cancelled)
      else
        match parseU32 trimmed with
        | none => ([], Except.error FlowErr.invalidIndex)
        | some idx =>
          match nonSystem.find? fun d => d.index == idx with
          | none => ([], Except.error FlowErr.notNonSystem)
          | some d =>
            if rustTrim input2 ≠ wipePhrase d.index then ([], Except.ok FlowOutcome.cancelled)
            else ([d.index], Except.ok (FlowOutcome.wiped d.index))

/-- Concrete probe for witnesses: indices 0, 1 and 2 are present disks of
100 bytes, all other indices fail to open. -/
def probeB : Nat → ProbeResult := fun i =>
  if i < 3 then ProbeResult.length 100 else ProbeResult.openFail

/-- Concrete probe for witnesses: index 0 fails to open, index 1 reports a
negative length, index 2 is a 4096-byte disk, the rest fail to open. -/
def probeC : Nat → ProbeResult := fun i =>
  if i = 0 then ProbeResult.openFail
  else if i = 1 then ProbeResult.length (-5)
  else if i = 2 then ProbeResult.length 4096
  else ProbeResult.openFail

/-- Concrete random-byte oracle for witnesses. -/
def rng0 : Nat → Nat → Nat → Nat := fun _ _ _ => 0

/-- Concrete initial content for witnesses: every byte is `0x41`. -/
def c41 : Nat → Nat := fun _ => 0x41

/-- Concrete success oracle for witnesses: every operation succeeds. -/
def okAll : Op → Bool := fun _ => true

/-- Concrete success oracle for witnesses: flush calls fail, seeks and
writes succeed. -/
def okFlushFail : Op → Bool := fun op =>
  match op with
  | Op.flush _ => false
  | _ => true

/-! Chunk-coverage lemmas for the streaming loop. -/

theorem covers_chunksFrom (fuel : Nat) : ∀ size written, size - written ≤ fuel →
    written ≤ size → covers (chunksFrom size written) written size := by
  induction fuel with
  | zero =>
    intro size w hf hw
    have hws : w = size := by omega
    rw [chunksFrom, if_neg (by omega)]
    simpa [covers] using hws
  | succ n ih =>
    intro size w hf hw
    rw [chunksFrom]
    by_cases h : w < size
    · rw [if_pos h]
      refine ⟨rfl, ?_, ?_, ?_⟩
      · have hc : 0 < CHUNK := by decide
        dsimp only
        split <;> omega
      · dsimp only
        split <;> omega
      · dsimp only
        have hc : 0 < CHUNK := by decide
        apply ih <;> split <;> omega
    · rw [if_neg h]
      simp [covers]
      omega

theorem covers_chunks (size : Nat) : covers (chunks size) 0 size :=
  covers_chunksFrom size size 0 (by omega) (by omega)

theorem covers_sum : ∀ (l : List (Nat × Nat)) (lo hi : Nat), covers l lo hi →
    lo + (l.map Prod.snd).sum = hi := by
  intro l
  induction l with
  | nil =>
    intro lo hi h
    simp only [covers] at h
    simpa using h
  | cons c rest ih =>
    intro lo hi h
    obtain ⟨h1, h2, h3, h4⟩ := h
    have := ih _ _ h4
    simp only [List.map_cons, List.sum_cons]
    omega

theorem covers_mem : ∀ (l : List (Nat × Nat)) (lo hi : Nat), covers l lo hi →
    ∀ j, lo ≤ j → j < hi → ∃ c ∈ l, c.1 ≤ j ∧ j < c.1 + c.2 := by
  intro l
  induction l with
  | nil =>
    intro lo hi h j h1 h2
    simp only [covers] at h
    omega
  | cons c rest ih =>
    intro lo hi h j h1 h2
    obtain ⟨hc1, hc2, hc3, hc4⟩ := h
    by_cases hj : j < lo + c.2
    · exact ⟨c, List.mem_cons_self c rest, by omega, by omega⟩
    · obtain ⟨c', hc'1, hc'2⟩ := ih _ _ hc4 j (by omega) h2
      exact ⟨c', List.mem_cons_of_mem c hc'1, hc'2⟩

theorem passWrites_passOps (q size p : Nat) :
    passWrites (passOps q size) p = if q = p then chunks size else [] := by
  unfold passWrites passOps
  rw [List.filterMap_cons]
  simp only
  rw [List.filterMap_append]
  have hflush : List.filterMap (fun op =>
      match op with
      | Op.write q' off len => if q' = p then some (off, len) else none
      | _ => none) [Op.flush q] = [] := by
    simp [List.filterMap_cons]
  rw [hflush, List.append_nil]
  induction chunks size with
  | nil => simp
  | cons ch rest ih =>
    rw [List.map_cons, List.filterMap_cons]
    by_cases h : q = p
    · simp only [if_pos h] at ih ⊢
      rw [ih]
    · simp only [if_neg h] at ih ⊢
      rw [ih]

theorem passWrites_flatMap_eq_nil (size p : Nat) :
    ∀ n, (∀ i, i < n → i + 1 ≠ p) →
      passWrites ((List.range n).flatMap fun i => passOps (i + 1) size) p = [] := by
  intro n
  induction n with
  | zero => intro _; simp [passWrites]
  | succ m ih =>
    intro h
    rw [List.range_succ, List.flatMap_append]
    unfold passWrites
    rw [List.filterMap_append]
    have h1 := ih (fun i hi => h i (by omega))
    unfold passWrites at h1
    rw [h1]
    have h2 := passWrites_passOps (m + 1) size p
    rw [if_neg (h m (by omega))] at h2
    unfold passWrites at h2
    simp only [List.flatMap_singleton] at *
    rw [h2]
    simp

theorem passWrites_wipeOps (mode : WipeMode) (size passes p : Nat)
    (h1 : 1 ≤ p) (h2 : p ≤ effPasses mode passes) :
    passWrites (wipeOps mode size passes) p = chunks size := by
  unfold wipeOps
  generalize hn : effPasses mode passes = n at h2
  clear hn
  induction n with
  | zero => omega
  | succ m ih =>
    rw [List.range_succ, List.flatMap_append]
    unfold passWrites
    rw [List.filterMap_append]
    by_cases hp : p ≤ m
    · have hrec := ih hp
      unfold passWrites at hrec
      rw [hrec]
      have hlast := passWrites_passOps (m + 1) size p
      rw [if_neg (by omega)] at hlast
      unfold passWrites at hlast
      simp only [List.flatMap_singleton] at *
      rw [hlast]
      simp
    · have hpm : p = m + 1 := by omega
      have hnil := passWrites_flatMap_eq_nil size p m (fun i hi => by omega)
      unfold passWrites at hnil
      rw [hnil]
      have hlast := passWrites_passOps (m + 1) size p
      rw [if_pos (by omega)] at hlast
      unfold passWrites at hlast
      simp only [List.flatMap_singleton] at *
      rw [hlast]
      simp

/-- C2: for every size, mode and executed pass of `wipe_file`, the writes
of that pass cover `[0, size)` in ascending offset order with no gaps and
no overlap, every chunk is at most `CHUNK = 8 MiB`, and the lengths sum to
exactly `size` — never more, never fewer. -/
theorem pass_chunk_coverage (mode : WipeMode) (size passes p : Nat)
    (h1 : 1 ≤ p) (h2 : p ≤ effPasses mode passes) :
    passWrites (wipeOps mode size passes) p = chunks size ∧
    covers (chunks size) 0 size ∧
    ((chunks size).map Prod.snd).sum = size := by
  refine ⟨passWrites_wipeOps mode size passes p h1 h2, covers_chunks size, ?_⟩
  have := covers_sum (chunks size) 0 size (covers_chunks size)
  omega

/-- Witness for C2 at mode `Zeros`, size 5, one pass. -/
theorem pass_chunk_coverage_witness :
    (1 ≤ 1 ∧ 1 ≤ effPasses WipeMode.Zeros 1) ∧
    (passWrites (wipeOps WipeMode.Zeros 5 1) 1 = chunks 5 ∧
     covers (chunks 5) 0 5 ∧
     ((chunks 5).map Prod.snd).sum = 5) :=
  ⟨⟨by decide, by decide⟩, pass_chunk_coverage WipeMode.Zeros 5 1 1 (by decide) (by decide)⟩

/-! Execution lemmas: successful runs and first-failure runs. -/

theorem execOps_allOk (mode : WipeMode) (rng : Nat → Nat → Nat → Nat) (ok : Op → Bool) :
    ∀ (ops : List Op) (c : Nat → Nat), (∀ op ∈ ops, ok op = true) →
      execOps mode rng ok c ops = ⟨ops, applyOps mode rng c ops, Except.ok ()⟩ := by
  intro ops
  induction ops with
  | nil => intro c _; rfl
  | cons op rest ih =>
    intro c h
    have hop : ok op = true := h op (List.mem_cons_self _ _)
    simp only [execOps]
    rw [if_pos hop, ih _ (fun o ho => h o (List.mem_cons_of_mem _ ho))]
    rfl

theorem execOps_firstFail (mode : WipeMode) (rng : Nat → Nat → Nat → Nat) (ok : Op → Bool) :
    ∀ (ops : List Op) (c : Nat → Nat), ¬ (∀ op ∈ ops, ok op = true) →
      ∃ pre f post, ops = pre ++ f :: post ∧ (∀ op ∈ pre, ok op = true) ∧ ok f = false ∧
        execOps mode rng ok c ops = ⟨pre ++ [f], applyOps mode rng c pre, Except.error f⟩ := by
  intro ops
  induction ops with
  | nil => intro c h; exact absurd (by simp) h
  | cons op rest ih =>
    intro c h
    by_cases hop : ok op = true
    · have hrest : ¬ ∀ o ∈ rest, ok o = true := by
        intro hall
        exact h (by
          intro o ho
          rcases List.mem_cons.mp ho with rfl | hm
          · exact hop
          · exact hall o hm)
      obtain ⟨pre, f, post, he, hpre, hf, hrun⟩ := ih (applyOp mode rng c op) hrest
      refine ⟨op :: pre, f, post, by rw [he, List.cons_append], ?_, hf, ?_⟩
      · intro o ho
        rcases List.mem_cons.mp ho with rfl | hm
        · exact hop
        · exact hpre o hm
      · simp only [execOps]
        rw [if_pos hop, hrun]
        rfl
    · have hf : ok op = false := by revert hop; cases ok op <;> simp
      refine ⟨[], op, rest, rfl, by simp, hf, ?_⟩
      simp only [execOps]
      rw [if_neg hop]
      rfl

/-! Content lemmas: effect of a fixed-pattern pass on the target. -/

theorem applyOps_passOps (mode : WipeMode) (rng : Nat → Nat → Nat → Nat)
    (c : Nat → Nat) (p size : Nat) :
    applyOps mode rng c (passOps p size) =
      (chunks size).foldl (fun acc ch => applyOp mode rng acc (Op.write p ch.1 ch.2)) c := by
  unfold applyOps passOps
  rw [List.foldl_cons, List.foldl_append, List.foldl_map]
  simp [applyOp]

theorem fixed_pass_content (mode : WipeMode) (rng : Nat → Nat → Nat → Nat) (p b : Nat)
    (hb : staticPattern mode p = some b) :
    ∀ (l : List (Nat × Nat)) (lo hi : Nat), covers l lo hi → ∀ (c : Nat → Nat) (j : Nat),
      (l.foldl (fun acc ch => applyOp mode rng acc (Op.write p ch.1 ch.2)) c) j
        = if lo ≤ j ∧ j < hi then b else c j := by
  intro l
  induction l with
  | nil =>
    intro lo hi hcov c j
    simp only [covers] at hcov
    subst hcov
    rw [List.foldl_nil, if_neg (by omega)]
  | cons ch rest ih =>
    intro lo hi hcov c j
    obtain ⟨h1, h2, h3, h4⟩ := hcov
    have hhi := covers_sum rest _ _ h4
    rw [List.foldl_cons, ih _ _ h4]
    by_cases hj : lo + ch.2 ≤ j ∧ j < hi
    · rw [if_pos hj, if_pos (by omega)]
    · rw [if_neg hj]
      simp only [applyOp]
      by_cases hj2 : ch.1 ≤ j ∧ j < ch.1 + ch.2
      · rw [if_pos hj2, if_pos (by omega)]
        simp [writeData, hb]
      · rw [if_neg hj2, if_neg (by omega)]

theorem applyOps_wipeOps_last (mode : WipeMode) (rng : Nat → Nat → Nat → Nat)
    (c0 : Nat → Nat) (size passes b : Nat)
    (heff : 1 ≤ effPasses mode passes)
    (hb : staticPattern mode (effPasses mode passes) = some b) :
    ∀ j < size, applyOps mode rng c0 (wipeOps mode size passes) j = b := by
  intro j hj
  obtain ⟨n, hn⟩ : ∃ n, effPasses mode passes = n + 1 := ⟨effPasses mode passes - 1, by omega⟩
  rw [hn] at hb
  unfold wipeOps
  rw [hn, List.range_succ, List.flatMap_append, List.flatMap_singleton]
  unfold applyOps
  rw [List.foldl_append]
  have hfold := applyOps_passOps mode rng
    (List.foldl (applyOp mode rng) c0
      ((List.range n).flatMap fun i => passOps (i + 1) size)) (n + 1) size
  unfold applyOps at hfold
  rw [hfold]
  rw [fixed_pass_content mode rng (n + 1) b hb (chunks size) 0 size (covers_chunks size)]
  rw [if_pos (by omega)]

/-! Pass-count lemmas. -/

theorem numPasses_passOps (p size : Nat) : numPasses (passOps p size) = 1 := by
  unfold numPasses passOps
  rw [List.countP_cons, List.countP_append]
  have h1 : List.countP (fun op =>
      match op with
      | Op.seek _ => true
      | _ => false) ((chunks size).map fun ch => Op.write p ch.1 ch.2) = 0 := by
    rw [List.countP_eq_zero]
    intro a ha
    obtain ⟨ch, _, rfl⟩ := List.mem_map.mp ha
    simp
  rw [h1]
  rfl

theorem numPasses_wipeOps (mode : WipeMode) (size passes : Nat) :
    numPasses (wipeOps mode size passes) = effPasses mode passes := by
  unfold wipeOps
  generalize effPasses mode passes = n
  induction n with
  | zero => rfl
  | succ m ih =>
    rw [List.range_succ, List.flatMap_append, List.flatMap_singleton]
    unfold numPasses at ih ⊢
    rw [List.countP_append, ih]
    have := numPasses_passOps (m + 1) size
    unfold numPasses at this
    rw [this]

theorem applyOps_no_writes (mode : WipeMode) (rng : Nat → Nat → Nat → Nat) :
    ∀ (ops : List Op) (c : Nat → Nat),
      (∀ op ∈ ops, ∀ p off len, op ≠ Op.write p off len) →
      applyOps mode rng c ops = c := by
  intro ops
  induction ops with
  | nil => intro c _; rfl
  | cons op rest ih =>
    intro c h
    have hstep : applyOp mode rng c op = c := by
      cases op with
      | seek p => rfl
      | flush p => rfl
      | write p off len => exact absurd rfl (h _ (List.mem_cons_self _ _) p off len)
    show applyOps mode rng (applyOp mode rng c op) rest = c
    rw [hstep]
    exact ih c (fun o ho => h o (List.mem_cons_of_mem _ ho))

/-! Claim theorems on the wipe engine. -/

theorem effPasses_of_two_le (mode : WipeMode) (passes : Nat) (h : 2 ≤ passes) :
    effPasses mode passes = passes := by
  cases mode <;> simp [effPasses] <;> omega

/-- C3: in `Secureflip` mode, odd passes (1-indexed) fill with `0x00` and
even passes with `0xFF`; for any size > 0 and pass count P >= 2, a run in
which every operation succeeds returns `Ok` and leaves every byte of
`[0, size)` equal to `0x00` when P is odd and `0xFF` when P is even. -/
theorem secureflip_final_content (size passes : Nat) (rng : Nat → Nat → Nat → Nat)
    (c0 : Nat → Nat) (hs : 0 < size) (hp : 2 ≤ passes) :
    (∀ pass, staticPattern WipeMode.Secureflip pass
        = some (if pass % 2 = 1 then 0x00 else 0xFF)) ∧
    (wipe_file okAll rng c0 size WipeMode.Secureflip passes).result = Except.ok () ∧
    ∀ i < size, (wipe_file okAll rng c0 size WipeMode.Secureflip passes).content i
        = if passes % 2 = 1 then 0x00 else 0xFF := by
  have heq : effPasses WipeMode.Secureflip passes = passes :=
    effPasses_of_two_le _ _ hp
  have hall : ∀ op ∈ wipeOps WipeMode.Secureflip size passes, okAll op = true :=
    fun _ _ => rfl
  have hrun := execOps_allOk WipeMode.Secureflip rng okAll
    (wipeOps WipeMode.Secureflip size passes) c0 hall
  refine ⟨?_, ?_, ?_⟩
  · intro pass
    by_cases h : pass % 2 = 1 <;> simp [staticPattern, h]
  · unfold wipe_file
    rw [hrun]
  · intro i hi
    unfold wipe_file
    rw [hrun]
    show applyOps WipeMode.Secureflip rng c0 (wipeOps WipeMode.Secureflip size passes) i = _
    apply applyOps_wipeOps_last WipeMode.Secureflip rng c0 size passes _ (by omega) _ i hi
    rw [heq]
    by_cases h : passes % 2 = 1 <;> simp [staticPattern, h]

/-- Witness for C3 at size 1, 2 passes: the surviving pattern is `0xFF`. -/
theorem secureflip_final_content_witness :
    (0 < 1 ∧ 2 ≤ 2) ∧
    ((∀ pass, staticPattern WipeMode.Secureflip pass
        = some (if pass % 2 = 1 then 0x00 else 0xFF)) ∧
     (wipe_file okAll rng0 c41 1 WipeMode.Secureflip 2).result = Except.ok () ∧
     ∀ i < 1, (wipe_file okAll rng0 c41 1 WipeMode.Secureflip 2).content i
        = if 2 % 2 = 1 then 0x00 else 0xFF) :=
  ⟨⟨by decide, by decide⟩,
   secureflip_final_content 1 2 rng0 c41 (by decide) (by decide)⟩

/-- C4: in `Zeros` mode, for any size > 0 and any pass count >= 1, a run
in which every operation succeeds returns `Ok` and leaves every byte of
`[0, size)` equal to `0x00`. -/
theorem zeros_final_content (size passes : Nat) (rng : Nat → Nat → Nat → Nat)
    (c0 : Nat → Nat) (hs : 0 < size) (hp : 1 ≤ passes) :
    (wipe_file okAll rng c0 size WipeMode.Zeros passes).result = Except.ok () ∧
    ∀ i < size, (wipe_file okAll rng c0 size WipeMode.Zeros passes).content i = 0x00 := by
  have hall : ∀ op ∈ wipeOps WipeMode.Zeros size passes, okAll op = true :=
    fun _ _ => rfl
  have hrun := execOps_allOk WipeMode.Zeros rng okAll
    (wipeOps WipeMode.Zeros size passes) c0 hall
  refine ⟨?_, ?_⟩
  · unfold wipe_file
    rw [hrun]
  · intro i hi
    unfold wipe_file
    rw [hrun]
    show applyOps WipeMode.Zeros rng c0 (wipeOps WipeMode.Zeros size passes) i = _
    exact applyOps_wipeOps_last WipeMode.Zeros rng c0 size passes 0x00
      (by simp [effPasses]; omega) rfl i hi

/-- Witness for C4 at size 3, 1 pass. -/
theorem zeros_final_content_witness :
    (0 < 3 ∧ 1 ≤ 1) ∧
    ((wipe_file okAll rng0 c41 3 WipeMode.Zeros 1).result = Except.ok () ∧
     ∀ i < 3, (wipe_file okAll rng0 c41 3 WipeMode.Zeros 1).content i = 0x00) :=
  ⟨⟨by decide, by decide⟩, zeros_final_content 3 1 rng0 c41 (by decide) (by decide)⟩

/-- C5: a `Secureflip` request below 2 passes is raised to exactly 2 and
the adjustment notice is printed; `Zeros` and `Random` requests, and
`Secureflip` requests of at least 2 passes, run exactly the requested
number of passes; the engine never lowers a requested pass count. -/
theorem secureflip_min_passes (mode : WipeMode) (passes size : Nat) :
    passes ≤ effPasses mode passes ∧
    numPasses (wipeOps mode size passes) = effPasses mode passes ∧
    (mode = WipeMode.Secureflip ∧ passes < 2 →
      effPasses mode passes = 2 ∧ secureflipAdjusted mode passes = true) ∧
    ((mode = WipeMode.Zeros ∨ mode = WipeMode.Random ∨ 2 ≤ passes) →
      effPasses mode passes = passes ∧ secureflipAdjusted mode passes = false) := by
  refine ⟨?_, numPasses_wipeOps mode size passes, ?_, ?_⟩
  · cases mode
    · exact Nat.le_refl _
    · exact Nat.le_refl _
    · simp only [effPasses]
      split <;> omega
  · rintro ⟨rfl, hlt⟩
    simp [effPasses, secureflipAdjusted, hlt]
  · rintro (rfl | rfl | h2)
    · simp [effPasses, secureflipAdjusted]
    · simp [effPasses, secureflipAdjusted]
    · cases mode <;> simp [effPasses, secureflipAdjusted] <;> omega

/-- Witness for C5: a 1-pass `Secureflip` request runs 2 passes with the
notice printed; a 7-pass `Zeros` request runs exactly 7 passes. -/
theorem secureflip_min_passes_witness :
    ((WipeMode.Secureflip = WipeMode.Secureflip ∧ 1 < 2) ∧
     (effPasses WipeMode.Secureflip 1 = 2 ∧
      secureflipAdjusted WipeMode.Secureflip 1 = true)) ∧
    (effPasses WipeMode.Zeros 7 = 7 ∧ secureflipAdjusted WipeMode.Zeros 7 = false) :=
  ⟨⟨⟨rfl, by decide⟩,
    (secureflip_min_passes WipeMode.Secureflip 1 0).2.2.1 ⟨rfl, by decide⟩⟩,
   (secureflip_min_passes WipeMode.Zeros 7 0).2.2.2 (Or.inl rfl)⟩

/-- C6: if any seek, write or flush of the run fails, the whole multi-pass
operation stops at the first failing operation: the attempted trace is the
successful prefix plus that one operation, nothing after it (no further
chunk of the current pass, no later pass) is attempted, the content keeps
exactly the effect of the successful prefix (no rollback), and the result
is the failing operation as an error — which carries the pass and byte
offset for writes and is distinguishable from successful completion. -/
theorem io_failure_aborts (mode : WipeMode) (size passes : Nat) (ok : Op → Bool)
    (rng : Nat → Nat → Nat → Nat) (c0 : Nat → Nat)
    (h : ¬ ∀ op ∈ wipeOps mode size passes, ok op = true) :
    ∃ pre f post,
      wipeOps mode size passes = pre ++ f :: post ∧
      (∀ op ∈ pre, ok op = true) ∧ ok f = false ∧
      (wipe_file ok rng c0 size mode passes).trace = pre ++ [f] ∧
      (wipe_file ok rng c0 size mode passes).result = Except.error f ∧
      (wipe_file ok rng c0 size mode passes).result ≠ Except.ok () ∧
      (wipe_file ok rng c0 size mode passes).content = applyOps mode rng c0 pre := by
  obtain ⟨pre, f, post, he, hpre, hf, hrun⟩ :=
    execOps_firstFail mode rng ok (wipeOps mode size passes) c0 h
  unfold wipe_file
  rw [hrun]
  exact ⟨pre, f, post, he, hpre, hf, rfl, rfl, by simp, rfl⟩

/-- Witness for C6: a run whose flush calls fail (size 1, one `Zeros`
pass) stops at the first flush. -/
theorem io_failure_aborts_witness :
    (¬ ∀ op ∈ wipeOps WipeMode.Zeros 1 1, okFlushFail op = true) ∧
    (∃ pre f post,
      wipeOps WipeMode.Zeros 1 1 = pre ++ f :: post ∧
      (∀ op ∈ pre, okFlushFail op = true) ∧ okFlushFail f = false ∧
      (wipe_file okFlushFail rng0 c41 1 WipeMode.Zeros 1).trace = pre ++ [f] ∧
      (wipe_file okFlushFail rng0 c41 1 WipeMode.Zeros 1).result = Except.error f ∧
      (wipe_file okFlushFail rng0 c41 1 WipeMode.Zeros 1).result ≠ Except.ok () ∧
      (wipe_file okFlushFail rng0 c41 1 WipeMode.Zeros 1).content
        = applyOps WipeMode.Zeros rng0 c41 pre) :=
  ⟨by simp [wipeOps, passOps, chunks, chunksFrom, CHUNK, effPasses, okFlushFail],
   io_failure_aborts WipeMode.Zeros 1 1 okFlushFail rng0 c41
     (by simp [wipeOps, passOps, chunks, chunksFrom, CHUNK, effPasses, okFlushFail])⟩

/-- C10: for size 0 the streaming loop body never runs — every pass is
just its seek followed by its flush, no write operation at all occurs, the
content is untouched and the run returns `Ok`, for every mode and every
pass count: the engine has no zero-length guard of its own (the guard
`if size_bytes == 0` lives in the caller, `src/main.rs`). -/
theorem zero_size_behavior (mode : WipeMode) (passes : Nat)
    (rng : Nat → Nat → Nat → Nat) (c0 : Nat → Nat) :
    chunks 0 = [] ∧
    wipeOps mode 0 passes
      = ((List.range (effPasses mode passes)).flatMap fun i =>
          [Op.seek (i + 1), Op.flush (i + 1)]) ∧
    (wipe_file okAll rng c0 0 mode passes).trace = wipeOps mode 0 passes ∧
    (wipe_file okAll rng c0 0 mode passes).result = Except.ok () ∧
    (∀ p off len, Op.write p off len ∉ (wipe_file okAll rng c0 0 mode passes).trace) ∧
    (wipe_file okAll rng c0 0 mode passes).content = c0 := by
  have hch : chunks 0 = [] := by rw [chunks, chunksFrom]; simp
  have hall : ∀ op ∈ wipeOps mode 0 passes, okAll op = true := fun _ _ => rfl
  have hrun := execOps_allOk mode rng okAll (wipeOps mode 0 passes) c0 hall
  have hops : wipeOps mode 0 passes
      = ((List.range (effPasses mode passes)).flatMap fun i =>
          [Op.seek (i + 1), Op.flush (i + 1)]) := by
    unfold wipeOps
    simp only [passOps, hch, List.map_nil, List.nil_append]
  refine ⟨hch, hops, ?_, ?_, ?_, ?_⟩
  · unfold wipe_file
    rw [hrun]
  · unfold wipe_file
    rw [hrun]
  · intro p off len hmem
    unfold wipe_file at hmem
    rw [hrun] at hmem
    have hmem' : Op.write p off len ∈ wipeOps mode 0 passes := hmem
    rw [hops] at hmem'
    obtain ⟨i, _, hmem2⟩ := List.mem_flatMap.mp hmem'
    simp at hmem2
  · unfold wipe_file
    rw [hrun]
    show applyOps mode rng c0 (wipeOps mode 0 passes) = c0
    apply applyOps_no_writes
    intro op hmem p off len
    rw [hops] at hmem
    obtain ⟨i, _, hmem2⟩ := List.mem_flatMap.mp hmem
    simp only [List.mem_cons, List.not_mem_nil, or_false] at hmem2
    rcases hmem2 with rfl | rfl <;> simp

/-! Enumeration lemmas (src/win.rs scan loops). -/

theorem pairwise_fst_filterMap (g : Nat → Option (Nat × Nat))
    (hg : ∀ i p, g i = some p → p.1 = i) :
    ∀ l : List Nat, l.Pairwise (· < ·) →
      ((l.filterMap g).map Prod.fst).Pairwise (· < ·) := by
  intro l
  induction l with
  | nil => intro _; simp
  | cons a rest ih =>
    intro hp
    rw [List.pairwise_cons] at hp
    obtain ⟨ha, hrest⟩ := hp
    rw [List.filterMap_cons]
    cases hga : g a with
    | none => exact ih hrest
    | some p =>
      show ((p :: rest.filterMap g).map Prod.fst).Pairwise (· < ·)
      rw [List.map_cons, List.pairwise_cons]
      refine ⟨?_, ih hrest⟩
      intro b hb
      obtain ⟨q, hq, rfl⟩ := List.mem_map.mp hb
      obtain ⟨j, hj, hgj⟩ := List.mem_filterMap.mp hq
      rw [hg a p hga, hg j q hgj]
      exact ha j hj

/-- C7: device enumeration over `[0, maxIndex)`: every kept record comes
from an index whose open and length query succeeded with a positive
length (open failures and non-positive lengths are excluded); an index
with a positive reported length is always kept, regardless of failures at
other indices (one failed open never aborts the scan); and the resulting
records are in strictly ascending index order. -/
theorem enumeration_behavior (probe : Nat → ProbeResult) (maxIndex : Nat) :
    (∀ p ∈ enumDisks probe maxIndex,
        ∃ L : Int, probe p.1 = ProbeResult.length L ∧ 0 < L ∧ p.2 = L.toNat) ∧
    (∀ i, i < maxIndex → ∀ L : Int, probe i = ProbeResult.length L → 0 < L →
        (i, L.toNat) ∈ enumDisks probe maxIndex) ∧
    ((enumDisks probe maxIndex).map Prod.fst).Pairwise (· < ·) := by
  refine ⟨?_, ?_, ?_⟩
  · intro p hp
    obtain ⟨i, _, hgi⟩ := List.mem_filterMap.mp hp
    cases hpi : probe i with
    | openFail => rw [hpi] at hgi; simp [keepDisk] at hgi
    | queryFail => rw [hpi] at hgi; simp [keepDisk] at hgi
    | length L =>
      rw [hpi] at hgi
      simp only [keepDisk] at hgi
      by_cases hL : L ≤ 0
      · rw [if_pos hL] at hgi
        cases hgi
      · rw [if_neg hL] at hgi
        obtain rfl := Option.some.inj hgi
        exact ⟨L, hpi, by omega, rfl⟩
  · intro i hi L hL hpos
    apply List.mem_filterMap.mpr
    refine ⟨i, List.mem_range.mpr hi, ?_⟩
    rw [hL]
    simp only [keepDisk]
    rw [if_neg (by omega)]
  · apply pairwise_fst_filterMap (fun i => keepDisk i (probe i)) ?_ _
      (List.pairwise_lt_range maxIndex)
    intro i p hip
    have hip' : keepDisk i (probe i) = some p := hip
    cases hpi : probe i with
    | openFail => rw [hpi] at hip'; simp [keepDisk] at hip'
    | queryFail => rw [hpi] at hip'; simp [keepDisk] at hip'
    | length L =>
      rw [hpi] at hip'
      simp only [keepDisk] at hip'
      by_cases hL : L ≤ 0
      · rw [if_pos hL] at hip'
        cases hip'
      · rw [if_neg hL] at hip'
        obtain rfl := Option.some.inj hip'
        rfl

/-- Witness for C7 with a probe whose index 0 fails to open and whose
index 1 reports a negative length: index 2 is still enumerated. -/
theorem enumeration_behavior_witness :
    (2 < 16 ∧ probeC 2 = ProbeResult.length 4096 ∧ (0 : Int) < 4096) ∧
    (2, Int.toNat 4096) ∈ enumDisks probeC 16 :=
  ⟨⟨by decide, by decide, by decide⟩,
   (enumeration_behavior probeC 16).2.1 2 (by decide) 4096 (by decide) (by decide)⟩

/-! Disk-wipe flow lemmas (src/win.rs, run_disk_wipe_flow). -/

theorem parseU32_ne_empty (s : String) (idx : Nat) (h : parseU32 s = some idx) :
    s ≠ ("") := by
  intro hs
  rw [hs] at h
  have hnone : parseU32 ("") = none := by decide
  rw [hnone] at h
  cases h

/-- C1: the resolved system-disk index is never in the candidate set
offered for whole-device wiping, for any enumeration result; and choosing
any index outside that candidate set (in particular the protected index,
or an index that was not enumerated) makes the flow fail with an error —
it never falls back to another disk. -/
theorem system_disk_never_candidate (probe : Nat → ProbeResult) (systemDisk : Nat) :
    (∀ d ∈ nonSystemCandidates probe systemDisk, d.index ≠ systemDisk) ∧
    (∀ line1 input2 idx, parseU32 (rustTrim line1) = some idx →
      idx ∉ (nonSystemCandidates probe systemDisk).map DiskInfo.index →
      ∃ e, (run_disk_wipe_flow probe systemDisk line1 input2).2 = Except.error e) := by
  constructor
  · intro d hd
    obtain ⟨hd1, hd2⟩ := List.mem_filter.mp hd
    obtain ⟨p, _, rfl⟩ := List.mem_map.mp hd1
    intro hcontra
    have hbeq : (p.1 == systemDisk) = true := beq_iff_eq.mpr hcontra
    rw [hbeq] at hd2
    cases hd2
  · intro line1 input2 idx hparse hnot
    simp only [run_disk_wipe_flow]
    split
    · exact ⟨FlowErr.noDisks, rfl⟩
    · split
      · exact ⟨FlowErr.noNonSystemDisks, rfl⟩
      · split
        · next htr => exact absurd htr (parseU32_ne_empty _ idx hparse)
        · split
          · exact ⟨FlowErr.invalidIndex, rfl⟩
          · next idx' heq =>
            obtain rfl : idx' = idx := by
              rw [hparse] at heq
              exact (Option.some.inj heq).symm
            split
            · exact ⟨FlowErr.notNonSystem, rfl⟩
            · next d hfind =>
              exfalso
              apply hnot
              apply List.mem_map.mpr
              refine ⟨d, List.mem_of_find?_eq_some hfind, ?_⟩
              have := List.find?_some hfind
              exact beq_iff_eq.mp this

/-- Witness for C1: with disks 0, 1 and 2 present and disk 1 the system
disk, the candidate indices are 0 and 2; selecting index 1 (the protected
disk) makes the flow fail with an error. -/
theorem system_disk_never_candidate_witness :
    (parseU32 (rustTrim ("1")) = some 1 ∧
     1 ∉ (nonSystemCandidates probeB 1).map DiskInfo.index) ∧
    ∃ e, (run_disk_wipe_flow probeB 1 ("1") ("x")).2 = Except.error e :=
  ⟨⟨by decide, by decide⟩,
   (system_disk_never_candidate probeB 1).2 ("1") ("x") 1 (by decide) (by decide)⟩

/-- C8 counterexample: the confirmation input `"WIPE-DISK-2 "` (trailing
space) does not equal the required phrase `"WIPE-DISK-2"` exactly, yet the
flow does not cancel: it trims the input first, so the run proceeds to
open device 2 for read/write and wipe it. -/
theorem confirm_trim_counterexample :
    ("WIPE-DISK-2 ") ≠ wipePhrase 2 ∧
    run_disk_wipe_flow probeB 1 ("2") ("WIPE-DISK-2 ")
      = ([2], Except.ok (FlowOutcome.wiped 2)) ∧
    (run_disk_wipe_flow probeB 1 ("2") ("WIPE-DISK-2 ")).1 ≠ [] := by
  refine ⟨by decide, rfl, by intro h; cases h⟩

/-- C8 amended: once the prompts are reached (some non-system candidate
exists), empty input at the disk-selection prompt — and any confirmation
input whose whitespace-trimmed form does not equal the required per-device
phrase — terminates the request as a successful clean cancel (`Ok`, not an
error) with no device opened for read/write and zero bytes written; an
input differing from the phrase only by surrounding whitespace is,
however, accepted (the flow compares the trimmed input). -/
theorem clean_cancel_gates (probe : Nat → ProbeResult) (systemDisk : Nat)
    (line1 input2 : String)
    (hne : nonSystemCandidates probe systemDisk ≠ []) :
    (rustTrim line1 = ("") →
      run_disk_wipe_flow probe systemDisk line1 input2
        = ([], Except.ok FlowOutcome.cancelled)) ∧
    (∀ idx d, parseU32 (rustTrim line1) = some idx →
      (nonSystemCandidates probe systemDisk).find? (fun d' => d'.index == idx) = some d →
      rustTrim input2 ≠ wipePhrase d.index →
      run_disk_wipe_flow probe systemDisk line1 input2
        = ([], Except.ok FlowOutcome.cancelled)) := by
  have hdisks : collectDisks probe 16 systemDisk ≠ [] := by
    intro h
    apply hne
    unfold nonSystemCandidates
    rw [h]
    rfl
  constructor
  · intro htr
    simp only [run_disk_wipe_flow]
    rw [if_neg hdisks, if_neg hne, if_pos htr]
  · intro idx d hparse hfind hmis
    simp only [run_disk_wipe_flow]
    rw [if_neg hdisks, if_neg hne,
      if_neg (parseU32_ne_empty _ idx hparse), hparse]
    show (match (nonSystemCandidates probe systemDisk).find?
        (fun d' => d'.index == idx) with
      | none => ([], Except.error FlowErr.notNonSystem)
      | some d =>
        if rustTrim input2 ≠ wipePhrase d.index
        then ([], Except.ok FlowOutcome.cancelled)
        else ([d.index], Except.ok (FlowOutcome.wiped d.index))) = _
    rw [hfind]
    show (if rustTrim input2 ≠ wipePhrase d.index
        then ([], Except.ok FlowOutcome.cancelled)
        else ([d.index], Except.ok (FlowOutcome.wiped d.index))) = _
    rw [if_pos hmis]

/-- Witness for C8 amended: with candidates 0 and 2 (system disk 1),
empty selection input cancels cleanly; and after selecting disk 2, a
confirmation input with the wrong case cancels cleanly. -/
theorem clean_cancel_gates_witness :
    (nonSystemCandidates probeB 1 ≠ [] ∧ rustTrim ("") = ("") ∧
     parseU32 (rustTrim ("2")) = some 2 ∧
     (nonSystemCandidates probeB 1).find? (fun d' => d'.index == 2)
        = some ⟨2, 100, false⟩ ∧
     rustTrim ("wipe-disk-2") ≠ wipePhrase 2) ∧
    run_disk_wipe_flow probeB 1 ("") ("x") = ([], Except.ok FlowOutcome.cancelled) ∧
    run_disk_wipe_flow probeB 1 ("2") ("wipe-disk-2")
      = ([], Except.ok FlowOutcome.cancelled) :=
  ⟨⟨by decide, by decide, by decide, by decide, by decide⟩,
   (clean_cancel_gates probeB 1 ("") ("x") (by decide)).1 (by decide),
   (clean_cancel_gates probeB 1 ("2") ("wipe-disk-2") (by decide)).2 2 ⟨2, 100, false⟩
     (by decide) (by decide) (by decide)⟩

/-! Confirmation comparison of the final wipe module (src/wipe.rs). -/

theorem char_toLower_ne_Y (c : Char) : Char.toLower c ≠ ('Y' : Char) := by
  rw [Char.toLower]
  by_cases h : c.toNat ≥ 65 ∧ c.toNat ≤ 90
  · rw [if_pos h]
    obtain ⟨h1, h2⟩ := h
    obtain ⟨n, hn⟩ : ∃ n, c.toNat = n := ⟨_, rfl⟩
    rw [hn] at h1 h2 ⊢
    interval_cases n <;> decide
  · rw [if_neg h]
    intro heq
    subst heq
    exact h (by decide)

theorem rustToLowercase_ne_YES (s : String) : rustToLowercase s ≠ ("YES") := by
  unfold rustToLowercase
  intro h
  have hdata : s.data.map Char.toLower = String.data ("YES") := congrArg String.data h
  have hyes : String.data ("YES") = ['Y', 'E', 'S'] := rfl
  rw [hyes] at hdata
  cases hl : s.data with
  | nil => rw [hl] at hdata; cases hdata
  | cons c rest =>
    rw [hl, List.map_cons] at hdata
    exact char_toLower_ne_Y c (List.cons.inj hdata).1

/-- C9: the final variant's `confirm_wipe` lower-cases only the input side
of its comparison against the constant `"YES"`, so no input line can ever
satisfy the acceptance test: `confirm_wipe` never proceeds via a matched
phrase for any input. -/
theorem confirm_wipe_never_accepts (input : String) :
    confirm_wipe_accepts input = false := by
  unfold confirm_wipe_accepts
  exact decide_eq_false (rustToLowercase_ne_YES _)

end WipeCore
